import Mathlib

/-!
Verification development for the Aristocrat (monoalphabetic substitution) solver
of `Assignment 0/ChatGPTCipherDecoder.py`.

The Python program is shallowly embedded here.  A `Key` is the solver's
ciphertext-letter → plaintext-letter mapping (a Python dict over the 26
uppercase letters, modelled as a function `Char → Char`; the dict's key set is
always the alphabet in insertion = alphabetical order, so iteration order is
`ALPHABETl`).  Floating-point scores are modelled over `ℝ` with exact `ℚ`
table weights; the random draws of `random.random()` / `random.choice` /
`random.sample` are explicit parameters (a draw in `[0,1)` is a `ℚ`, chosen
letters are `Char` arguments, per-step annealing randomness is an explicit
tape).
-/

/-- The 26-letter uppercase alphabet (`ALPHABET` in the source, line 64). -/
def ALPHABETl : List Char := "ABCDEFGHIJKLMNOPQRSTUVWXYZ".toList

/-- ASCII-letter test, the scope of Python's `str.isalpha`/`str.translate`
machinery exercised by this program (the translation table built in
`key_to_trans_table` contains exactly the 52 ASCII letters). -/
def isAsciiAlpha (c : Char) : Prop := ('A' ≤ c ∧ c ≤ 'Z') ∨ ('a' ≤ c ∧ c ≤ 'z')

instance (c : Char) : Decidable (isAsciiAlpha c) := by
  unfold isAsciiAlpha
  infer_instance

/-- A substitution key: ciphertext letter → plaintext letter. -/
def Key : Type := Char → Char

/-- The identity key (maps every letter to itself); a concrete bijection used
as a test input. -/
def idKey : Key := fun c => c

/-- Python dict assignment `new[a] = v` on a key. -/
def updateKey (k : Key) (a v : Char) : Key := fun x => if x = a then v else k x

/-- The two-letter swap `new[a], new[b] = new[b], new[a]`
(source lines 93-97 and 115-117): both right-hand values are read from the
original key before either assignment. -/
def swapKey (k : Key) (a b : Char) : Key :=
  fun x => if x = a then k b else if x = b then k a else k x

/-- The three-letter assignment `new[a], new[b], new[c] = new[c], new[a], new[b]`
(source line 113): the right-hand tuple is evaluated from the original key,
then the three assignments happen left to right (later ones override earlier
ones when letters coincide). -/
def cycle3Key (k : Key) (a b c : Char) : Key :=
  updateKey (updateKey (updateKey k a (k c)) b (k a)) c (k b)

/-- `mutate_key_random` (source lines 93-97): `a, b = random.sample(ALPHABET, 2)`
samples without replacement, so the two drawn letters, passed here as
arguments, are distinct. -/
def mutate_key_random (k : Key) (a b : Char) : Key := swapKey k a b

/-- `mutate_key_guided` (source lines 99-119) with its random draws explicit:
`r1` is the first `random.random()` (guided branch when `< 0.6`), `a b` the two
`random.choice(choices)` letters (drawn independently, possibly equal), `r2`
the second `random.random()` (3-cycle branch when `< 0.1`), `c` the third
letter, and `a' b'` the distinct letters `random.sample` would draw in the
fallback `mutate_key_random` branch. -/
def mutate_key_guided (k : Key) (r1 r2 : ℚ) (a b c a' b' : Char) : Key :=
  if r1 < 0.6 then
    if r2 < 0.1 then cycle3Key k a b c
    else swapKey k a b
  else mutate_key_random k a' b'

/-- The bijection invariant of the spec: the multiset of the key's 26 values
equals the 26-letter alphabet exactly once each. -/
def isValidKey (k : Key) : Prop := (ALPHABETl.map k).Perm ALPHABETl

instance (k : Key) : Decidable (isValidKey k) := List.decidablePerm _ _

/-- One aligned-pair step of the loop body of `apply_crib_to_key`
(source lines 211-229): skip non-letter pairs, skip already-satisfied pairs,
otherwise find the first dict key currently mapping to `p` (dict iteration
order is alphabetical) and swap, or assign directly if none is found. -/
def cribStep (k : Key) (cp : Char × Char) : Key :=
  if ¬ isAsciiAlpha cp.1 ∨ ¬ isAsciiAlpha cp.2 then k
  else if k cp.1 = cp.2 then k
  else
    match ALPHABETl.find? (fun x => k x == cp.2) with
    | some kp => swapKey k kp cp.1
    | none => updateKey k cp.1 cp.2

/-- `apply_crib_to_key` (source lines 201-230): uppercase both fragments,
return the key unchanged on a length mismatch, otherwise fold the pair steps
over the aligned letters. -/
def apply_crib_to_key (k : Key) (cipher_word plain_word : List Char) : Key :=
  let cw := cipher_word.map Char.toUpper
  let pw := plain_word.map Char.toUpper
  if cw.length ≠ pw.length then k
  else (cw.zip pw).foldl cribStep k

/-- `invert_key` (source lines 85-90): build the value → key dict; iteration
is in alphabetical order and later entries overwrite, so each plaintext letter
maps to the last alphabet letter carrying it. -/
def invert_key (k : Key) : Key :=
  fun p => (ALPHABETl.reverse.find? (fun c => k c == p)).getD p

/-- Per-character action of `cipher.translate(key_to_trans_table(key))`
(source lines 73-83): the table maps each uppercase letter `c` to `key[c]` and
each lowercase letter to `key[c].lower()`; characters outside the table are
copied unchanged. -/
def applyCh (k : Key) (c : Char) : Char :=
  if 'A' ≤ c ∧ c ≤ 'Z' then k c
  else if 'a' ≤ c ∧ c ≤ 'z' then Char.toLower (k (Char.toUpper c))
  else c

/-- `decrypt_with_key` (source lines 81-83). -/
def decrypt_with_key (cipher : List Char) (k : Key) : List Char :=
  cipher.map (applyCh k)

/-- Key used by the spec's case/punctuation-preservation example: A→X, B→Y,
C→Z (other letters unconstrained by the example; fixed to the identity). -/
def exampleKey : Key :=
  fun c => if c = 'A' then 'X' else if c = 'B' then 'Y' else if c = 'C' then 'Z' else c

/-- `letters_only` (source lines 61-62): uppercase, keep letters. -/
def letters_only (s : List Char) : List Char :=
  (s.map Char.toUpper).filter (fun c => decide (isAsciiAlpha c))

/-- Adjacent pairs `txt[i:i+2]` for `i in range(len(txt)-1)` (source lines 128-129). -/
def adjPairs : List Char → List (Char × Char)
  | a :: b :: rest => (a, b) :: adjPairs (b :: rest)
  | _ => []

/-- `BIGRAM_COUNTS` (source lines 43-49), in source order; the Python dict
literal lists "OR" twice (6000 then 5000) and the later binding wins. -/
def BIGRAM_COUNTS : List ((Char × Char) × ℕ) :=
  [(('T','H'), 20000), (('H','E'), 18000), (('I','N'), 12000), (('E','R'), 11000),
   (('A','N'), 10000), (('R','E'), 9000),
   (('N','D'), 8000), (('A','T'), 7500), (('O','N'), 7000), (('N','T'), 6800),
   (('H','A'), 6500), (('E','S'), 6400),
   (('S','T'), 6300), (('E','N'), 6200), (('E','D'), 6100), (('O','R'), 6000),
   (('T','I'), 5900), (('T','E'), 5800),
   (('N','G'), 5700), (('O','F'), 5600), (('I','T'), 5500), (('I','S'), 5400),
   (('A','L'), 5300), (('A','R'), 5200),
   (('A','S'), 5100), (('O','R'), 5000), (('S','E'), 4800), (('L','E'), 4700),
   (('S','A'), 4600), (('V','E'), 4500)]

/-- Python dict lookup `BIGRAM_COUNTS.get(bg)`: the last literal binding for a
repeated literal dict key is the one stored. -/
def bigramGet (bg : Char × Char) : Option ℕ :=
  (BIGRAM_COUNTS.reverse.find? (fun e => e.1 == bg)).map Prod.snd

/-- `BIGRAM_FLOOR` (source line 51). -/
def BIGRAM_FLOOR : ℚ := 0.01

/-- `TOTAL_BIGRAMS = sum(BIGRAM_COUNTS.values())` (source line 50): the sum of
the dict's stored values, one per distinct key. -/
def TOTAL_BIGRAMS : ℕ :=
  (((BIGRAM_COUNTS.map Prod.fst).dedup).map (fun bg => (bigramGet bg).getD 0)).sum

/-- The weight `BIGRAM_COUNTS.get(bg, BIGRAM_FLOOR)` (source line 130). -/
def bigramCountQ (bg : Char × Char) : ℚ :=
  match bigramGet bg with
  | some n => (n : ℚ)
  | none => BIGRAM_FLOOR

/-- `bigram_score` (source lines 122-132): `-9999.0` for fewer than two
letters, otherwise the sum over adjacent letter pairs of
`log(count) - log(TOTAL_BIGRAMS)`. -/
noncomputable def bigram_score (s : List Char) : ℝ :=
  let txt := letters_only s
  if txt.length < 2 then -9999
  else ((adjPairs txt).map
    (fun bg => Real.log ((bigramCountQ bg : ℚ) : ℝ) - Real.log ((TOTAL_BIGRAMS : ℕ) : ℝ))).sum

/-- A character matched by the tokenizing regex `[A-Z']` on uppercased text. -/
def isTokenChar (c : Char) : Bool := ('A' ≤ c && c ≤ 'Z') || c == '\''

/-- `re.findall(r"[A-Z']+", text.upper())` (source lines 155, 183, 307):
maximal runs of uppercase letters and apostrophes in the uppercased text. -/
def pyTokens (s : List Char) : List (List Char) :=
  ((s.map Char.toUpper).splitOnP (fun c => !(isTokenChar c))).filter (· ≠ [])

/-- Python `token.strip("'")`: drop all leading and trailing apostrophes. -/
def stripApos (t : List Char) : List Char :=
  ((t.dropWhile (· == '\'')).reverse.dropWhile (· == '\'')).reverse

/-- `FALLBACK_COMMON_WORDS` (source lines 31-39): the uppercased words of the
embedded text, split on whitespace; with `WORDLIST_PATH = None` (line 28) this
is also `ENGLISH_WORDS` (lines 135-151). -/
def FALLBACK_COMMON_WORDS : List (List Char) :=
  ((("the be to of and a in that have I it for not on with he as you do at
this but his by from they we say her she or an will my one all would there their
what so up out if about who get which go me when make can like time no just him know
take people into year your good some could them see other than then now look only come its
over think also back after use two how our work first well way even new want because any these give day most us" : String).toList.splitOnP
      (fun c => c.isWhitespace)).filter (· ≠ [])).map (List.map Char.toUpper)

/-- `ENGLISH_WORDS = load_wordlist(WORDLIST_PATH)` with `WORDLIST_PATH = None`:
the loader's fallback is the built-in common-word set (source lines 135-151). -/
def ENGLISH_WORDS : List (List Char) := FALLBACK_COMMON_WORDS

/-- The contraction suffixes tried by `word_score` (source line 171). -/
def SUFFIXES : List (List Char) :=
  [['\'', 'S'], ['\'', 'T'], ['N', '\'', 'T'], ['S'], ['T'], ['N', 'T']]

/-- The contraction fallback of the `word_score` loop (source lines 170-174):
some suffix matches and the clipped token is a known word. -/
def contractionHit (token : List Char) : Bool :=
  SUFFIXES.any (fun suf =>
    suf.isSuffixOf token && ENGLISH_WORDS.contains (token.take (token.length - suf.length)))

/-- The `(matches, total)` accumulation of the `word_score` loop
(source lines 158-174): skip tokens that strip to nothing, count the rest,
and count a match for a direct word-list hit or a contraction hit. -/
def word_counts (s : List Char) : ℕ × ℕ :=
  (pyTokens s).foldl
    (fun (mt : ℕ × ℕ) t =>
      let token := stripApos t
      if token = [] then mt
      else if ENGLISH_WORDS.contains token then (mt.1 + 1, mt.2 + 1)
      else if contractionHit token then (mt.1 + 1, mt.2 + 1)
      else (mt.1, mt.2 + 1))
    (0, 0)

/-- `word_score` (source lines 153-177): the fraction of (apostrophe-stripped,
non-empty) tokens found in the word list, directly or as a contraction. -/
def word_score (s : List Char) : ℚ :=
  if pyTokens s = [] then 0
  else if (word_counts s).2 = 0 then 0
  else ((word_counts s).1 : ℚ) / ((word_counts s).2 : ℚ)

/-- `COMMON_WORDS` (source line 180). -/
def COMMON_WORDS : List (List Char) :=
  ["THE".toList, "AND".toList, "TO".toList, "OF".toList, "A".toList, "I".toList,
   "IN".toList, "IS".toList, "YOU".toList, "THAT".toList, "IT".toList, "HE".toList,
   "WAS".toList, "FOR".toList, "ON".toList]

/-- `common_words_bonus` (source lines 182-189): count the tokens whose
apostrophe-stripped form is in `COMMON_WORDS`. -/
def common_words_bonus (s : List Char) : ℕ :=
  (pyTokens s).foldl
    (fun found t => if COMMON_WORDS.contains (stripApos t) then found + 1 else found) 0

/-- `combined_fitness` (source lines 191-198):
`bigram_score + word_score * 8.0 + common_words_bonus * 1.6`. -/
noncomputable def combined_fitness (s : List Char) : ℝ :=
  bigram_score s + ((word_score s : ℚ) : ℝ) * 8.0 + ((common_words_bonus s : ℕ) : ℝ) * 1.6

/-- One step's random input to `simulated_anneal`: the effect of
`mutate_fn` on the current key (the mutation operators' internal draws are
folded into the function), and the `random.random()` acceptance draw. -/
def AnnealEvent : Type := (Key → Key) × ℝ

/-- The loop state of `simulated_anneal` (source lines 241-247). -/
structure AState where
  current_key : Key
  current_plain : List Char
  current_score : ℝ
  best_key : Key
  best_plain : List Char
  best_score : ℝ

/-- The state before the loop of `simulated_anneal` (source lines 241-247):
current = best = the initial key, with its decryption scored once. -/
noncomputable def annealInit (cipher : List Char) (key0 : Key) : AState :=
  ⟨key0, decrypt_with_key cipher key0, combined_fitness (decrypt_with_key cipher key0),
   key0, decrypt_with_key cipher key0, combined_fitness (decrypt_with_key cipher key0)⟩

/-- One iteration of the `simulated_anneal` loop (source lines 249-263):
linear temperature decay, one mutated candidate, Metropolis acceptance
(`delta > 0` or `exp(delta / max(temp, 1e-12)) > random.random()`), and a
best-so-far update on acceptance when the new score beats the best score. -/
noncomputable def annealStep (cipher : List Char) (start_temp end_temp : ℝ)
    (steps : ℕ) (tape : ℕ → AnnealEvent) (st : AState) (i : ℕ) : AState :=
  let t : ℝ := (i : ℝ) / (steps : ℝ)
  let temp := start_temp * (1 - t) + end_temp * t
  let candidate_key := (tape i).1 st.current_key
  let candidate_plain := decrypt_with_key cipher candidate_key
  let candidate_score := combined_fitness candidate_plain
  let delta := candidate_score - st.current_score
  if delta > 0 ∨ Real.exp (delta / max temp 1e-12) > (tape i).2 then
    if candidate_score > st.best_score then
      ⟨candidate_key, candidate_plain, candidate_score,
       candidate_key, candidate_plain, candidate_score⟩
    else
      ⟨candidate_key, candidate_plain, candidate_score,
       st.best_key, st.best_plain, st.best_score⟩
  else st

/-- `simulated_anneal` (source lines 233-264) with the per-step randomness as
an explicit tape; returns `(best_key, best_score, best_plain)`. -/
noncomputable def simulated_anneal (cipher : List Char) (key0 : Key)
    (start_temp end_temp : ℝ) (steps : ℕ) (tape : ℕ → AnnealEvent) :
    Key × ℝ × List Char :=
  let fin := (List.range steps).foldl (annealStep cipher start_temp end_temp steps tape)
    (annealInit cipher key0)
  (fin.best_key, fin.best_score, fin.best_plain)

/-- The trace of loop states of one annealing run: the initial state followed
by the state after each step (the current state changes exactly at accepted
steps, so the current keys of this walk are the initial key and the accepted
candidates). -/
noncomputable def annealWalk (cipher : List Char) (key0 : Key)
    (start_temp end_temp : ℝ) (steps : ℕ) (tape : ℕ → AnnealEvent) : List AState :=
  (List.range steps).scanl (annealStep cipher start_temp end_temp steps tape)
    (annealInit cipher key0)

/-- A `(score, plaintext, key)` entry of the `results` list of `run_restarts`
(source line 287). -/
def Res : Type := ℝ × List Char × Key

/-- The random draws consumed by one call of `run_restarts`, per restart
index: the `random_key()` start key, the `random.random()` crib draw, the
`random.choice` crib index, and the two annealing runs' tapes. -/
structure RunOracle where
  initKey : ℕ → Key
  cribRand : ℕ → ℚ
  cribPick : ℕ → ℕ
  tape1 : ℕ → ℕ → AnnealEvent
  tape2 : ℕ → ℕ → AnnealEvent

/-- The `results` list accumulated by the restart loop of `run_restarts`
(source lines 272-290): per restart, an optionally crib-seeded random key, a
full annealing run, and a shorter polish run from the first run's best key;
both results are appended. -/
noncomputable def resultsOf (o : RunOracle) (cipher : List Char)
    (restarts steps : ℕ) (crib_list : List (List Char × List Char)) : List Res :=
  (List.range restarts).flatMap (fun r =>
    let k0 := o.initKey r
    let k1 :=
      if crib_list.length ≠ 0 then
        if o.cribRand r < 0.7 then
          let cp := crib_list.getD (o.cribPick r % crib_list.length) ([], [])
          apply_crib_to_key k0 cp.1 cp.2
        else crib_list.foldl (fun kk cp => apply_crib_to_key kk cp.1 cp.2) k0
      else k0
    let R1 := simulated_anneal cipher k1 1.0 0.001 steps (o.tape1 r)
    let R2 := simulated_anneal cipher R1.1 0.6 0.0001 (steps / 2) (o.tape2 r)
    [(R1.2.1, R1.2.2, R1.1), (R2.2.1, R2.2.2, R2.1)])

/-- The descending stable sort `results.sort(reverse=True, key=lambda x: x[0])`
(source line 293). -/
noncomputable def sortResults (l : List Res) : List Res :=
  l.mergeSort (fun a b => decide (b.1 ≤ a.1))

/-- The dedup-and-truncate walk of `run_restarts` (source lines 294-302):
append entries whose plaintext is unseen, and stop as soon as the output
holds `top_n` entries (the break test runs after every iteration). -/
def dedupTake (topN : ℕ) : List Res → List (List Char) → List Res → List Res
  | [], _, out => out.reverse
  | x :: rest, seen, out =>
    let seen' := if x.2.1 ∈ seen then seen else x.2.1 :: seen
    let out' := if x.2.1 ∈ seen then out else x :: out
    if topN ≤ out'.length then out'.reverse else dedupTake topN rest seen' out'

/-- `run_restarts` (source lines 266-302). -/
noncomputable def run_restarts (o : RunOracle) (cipher : List Char)
    (restarts steps : ℕ) (crib_list : List (List Char × List Char))
    (top_n : ℕ) : List Res :=
  dedupTake top_n (sortResults (resultsOf o cipher restarts steps crib_list)) [] []

/-- Keep-first-occurrence deduplication by plaintext: the list the dedup walk
of `run_restarts` would produce with no `top_n` cutoff. -/
def pdedup : List Res → List (List Char) → List Res
  | [], _ => []
  | x :: r, seen =>
    if x.2.1 ∈ seen then pdedup r seen else x :: pdedup r (x.2.1 :: seen)

/-- A concrete all-trivial randomness oracle (identity start keys, zero draws,
identity mutations), used for concrete instances. -/
noncomputable def zeroOracle : RunOracle :=
  ⟨fun _ => idKey, fun _ => 0, fun _ => 0, fun _ _ => (id, 0), fun _ _ => (id, 0)⟩

/-- Coherence of an annealing loop state: the tracked plaintexts and scores
are those of the tracked keys, and the best score dominates the current one. -/
noncomputable def annealInv (cipher : List Char) (st : AState) : Prop :=
  st.current_plain = decrypt_with_key cipher st.current_key ∧
  st.current_score = combined_fitness st.current_plain ∧
  st.best_plain = decrypt_with_key cipher st.best_key ∧
  st.best_score = combined_fitness st.best_plain ∧
  st.current_score ≤ st.best_score

example : isValidKey idKey := by decide
example : ¬ isValidKey (cycle3Key idKey 'A' 'A' 'B') := by decide
example : cycle3Key idKey 'A' 'B' 'C' 'A' = 'C' := by decide
example : decrypt_with_key "Ab, C!".toList exampleKey = "Xy, Z!".toList := by decide
example : apply_crib_to_key idKey "ABC".toList "THE".toList 'A' = 'T' := by decide
example : isValidKey (apply_crib_to_key idKey "ABC".toList "THE".toList) := by decide
example : TOTAL_BIGRAMS = 213900 := by decide
example : word_counts "THE THE".toList = (2, 2) := by decide
example : word_counts "THE".toList = (1, 1) := by decide
example : pyTokens "THE".toList = ["THE".toList] := by decide
example : common_words_bonus "THE THE".toList = 2 := by decide
example : common_words_bonus "THE".toList = 1 := by decide
example : letters_only "THE THE".toList = "THETHE".toList := by decide
example : adjPairs "THETHE".toList
    = [('T','H'), ('H','E'), ('E','T'), ('T','H'), ('H','E')] := by decide
example : bigramGet ('T','H') = some 20000 := by decide
example : bigramGet ('E','T') = none := by decide
example : bigramGet ('O','R') = some 5000 := by decide

/-! ### Helper lemmas about the alphabet and valid keys -/

lemma alphabet_nodup : ALPHABETl.Nodup := by decide

lemma mem_alpha_upper : ∀ c ∈ ALPHABETl, 'A' ≤ c ∧ c ≤ 'Z' := by decide

lemma mem_alpha_isAlpha : ∀ c ∈ ALPHABETl, isAsciiAlpha c := by decide

lemma valid_map_mem {k : Key} (hk : isValidKey k) {c : Char} (hc : c ∈ ALPHABETl) :
    k c ∈ ALPHABETl :=
  hk.mem_iff.mp (List.mem_map_of_mem k hc)

lemma valid_surj {k : Key} (hk : isValidKey k) {p : Char} (hp : p ∈ ALPHABETl) :
    ∃ c ∈ ALPHABETl, k c = p := by
  have : p ∈ ALPHABETl.map k := hk.mem_iff.mpr hp
  simpa using this

lemma valid_inj {k : Key} (hk : isValidKey k) {a b : Char}
    (ha : a ∈ ALPHABETl) (hb : b ∈ ALPHABETl) (h : k a = k b) : a = b := by
  have hnd : (ALPHABETl.map k).Nodup := hk.nodup_iff.mpr alphabet_nodup
  exact List.inj_on_of_nodup_map hnd ha hb h

/-- The pointwise transposition of two letters. -/
def swapFn (a b x : Char) : Char := if x = a then b else if x = b then a else x

lemma swapKey_eq_comp (k : Key) (a b : Char) :
    swapKey k a b = fun x => k (swapFn a b x) := by
  funext x
  by_cases hxa : x = a
  · simp [swapKey, swapFn, hxa]
  · by_cases hxb : x = b
    · by_cases hba : b = a <;> simp [swapKey, swapFn, hxa, hxb, hba]
    · simp [swapKey, swapFn, hxa, hxb]

lemma swapFn_invol (a b x : Char) : swapFn a b (swapFn a b x) = x := by
  by_cases hxa : x = a
  · by_cases hba : b = a <;> simp [swapFn, hxa, hba]
  · by_cases hxb : x = b
    · simp [swapFn, hxa, hxb]
    · simp [swapFn, hxa, hxb]

lemma swapFn_injective (a b : Char) : Function.Injective (swapFn a b) := by
  intro x y h
  have := congrArg (swapFn a b) h
  rwa [swapFn_invol, swapFn_invol] at this

lemma swapFn_mem {a b x : Char} (ha : a ∈ ALPHABETl) (hb : b ∈ ALPHABETl) :
    swapFn a b x ∈ ALPHABETl ↔ x ∈ ALPHABETl := by
  by_cases hxa : x = a
  · subst hxa
    by_cases hab : x = b <;> simp [swapFn, hab, ha, hb]
  · by_cases hxb : x = b
    · subst hxb
      simp [swapFn, hxa, ha, hb]
    · simp [swapFn, hxa, hxb]

lemma count_alpha_eq (x y : Char) (hmem : x ∈ ALPHABETl ↔ y ∈ ALPHABETl) :
    ALPHABETl.count x = ALPHABETl.count y := by
  by_cases hx : x ∈ ALPHABETl
  · rw [List.count_eq_one_of_mem alphabet_nodup hx,
      List.count_eq_one_of_mem alphabet_nodup (hmem.mp hx)]
  · rw [List.count_eq_zero_of_not_mem hx,
      List.count_eq_zero_of_not_mem (fun hy => hx (hmem.mpr hy))]

lemma perm_map_swapFn {a b : Char} (ha : a ∈ ALPHABETl) (hb : b ∈ ALPHABETl) :
    (ALPHABETl.map (swapFn a b)).Perm ALPHABETl := by
  rw [List.perm_iff_count]
  intro y
  have h1 : y = swapFn a b (swapFn a b y) := (swapFn_invol a b y).symm
  calc (ALPHABETl.map (swapFn a b)).count y
      = (ALPHABETl.map (swapFn a b)).count (swapFn a b (swapFn a b y)) := by rw [← h1]
    _ = ALPHABETl.count (swapFn a b y) :=
        List.count_map_of_injective _ _ (swapFn_injective a b) _
    _ = ALPHABETl.count y := count_alpha_eq _ _ (swapFn_mem ha hb)

lemma swap_valid {k : Key} (hk : isValidKey k) {a b : Char}
    (ha : a ∈ ALPHABETl) (hb : b ∈ ALPHABETl) : isValidKey (swapKey k a b) := by
  unfold isValidKey
  rw [swapKey_eq_comp]
  have h1 : ALPHABETl.map (fun x => k (swapFn a b x))
      = (ALPHABETl.map (swapFn a b)).map k := by
    rw [List.map_map]
    rfl
  rw [h1]
  exact ((perm_map_swapFn ha hb).map k).trans hk

/-! ### Helper lemmas about the crib seeder -/

lemma cribStep_installs {k : Key} (hk : isValidKey k) {c p : Char}
    (hc : c ∈ ALPHABETl) (hp : p ∈ ALPHABETl) :
    (cribStep k (c, p)) c = p ∧ isValidKey (cribStep k (c, p)) ∧
      ∀ x, x ≠ c → k x ≠ p → cribStep k (c, p) x = k x := by
  have hca : isAsciiAlpha c := mem_alpha_isAlpha c hc
  have hpa : isAsciiAlpha p := mem_alpha_isAlpha p hp
  unfold cribStep
  rw [if_neg (by simp [hca, hpa])]
  by_cases hkc : k c = p
  · rw [if_pos hkc]
    exact ⟨hkc, hk, fun x _ _ => rfl⟩
  · rw [if_neg hkc]
    obtain ⟨c0, hc0, hkc0⟩ := valid_surj hk hp
    have hsome : (ALPHABETl.find? (fun x => k x == p)).isSome := by
      rw [List.find?_isSome]
      exact ⟨c0, hc0, by simp [hkc0]⟩
    obtain ⟨kp, hfind⟩ := Option.isSome_iff_exists.mp hsome
    have hkkp : k kp = p := by simpa using List.find?_some hfind
    have hkpmem : kp ∈ ALPHABETl := List.mem_of_find?_eq_some hfind
    have hckp : c ≠ kp := fun h => hkc (h ▸ hkkp)
    rw [hfind]
    refine ⟨?_, swap_valid hk hkpmem hc, ?_⟩
    · simp [swapKey, hckp.symm, Ne.symm hckp, hkkp]
      intro h
      exact absurd rfl (h ▸ hckp)
    · intro x hxc hxp
      have hxkp : x ≠ kp := fun h => hxp (h ▸ hkkp)
      simp [swapKey, hxkp, hxc]

lemma cribStep_swap_form {k : Key} (hk : isValidKey k) {c p : Char}
    (hc : c ∈ ALPHABETl) (hp : p ∈ ALPHABETl) (hkc : k c ≠ p) :
    ∃ kp, kp ∈ ALPHABETl ∧ k kp = p ∧ (∀ x ∈ ALPHABETl, k x = p → x = kp) ∧
      cribStep k (c, p) = swapKey k kp c := by
  have hca : isAsciiAlpha c := mem_alpha_isAlpha c hc
  have hpa : isAsciiAlpha p := mem_alpha_isAlpha p hp
  obtain ⟨c0, hc0, hkc0⟩ := valid_surj hk hp
  have hsome : (ALPHABETl.find? (fun x => k x == p)).isSome := by
    rw [List.find?_isSome]
    exact ⟨c0, hc0, by simp [hkc0]⟩
  obtain ⟨kp, hfind⟩ := Option.isSome_iff_exists.mp hsome
  have hkkp : k kp = p := by simpa using List.find?_some hfind
  have hkpmem : kp ∈ ALPHABETl := List.mem_of_find?_eq_some hfind
  refine ⟨kp, hkpmem, hkkp, ?_, ?_⟩
  · intro x hx hxp
    exact valid_inj hk hx hkpmem (hxp.trans hkkp.symm)
  · unfold cribStep
    rw [if_neg (by simp [hca, hpa]), if_neg hkc, hfind]

lemma cribStep_noop {k : Key} {c p : Char}
    (hc : c ∈ ALPHABETl) (hp : p ∈ ALPHABETl) (hkc : k c = p) :
    cribStep k (c, p) = k := by
  unfold cribStep
  rw [if_neg (by simp [mem_alpha_isAlpha c hc, mem_alpha_isAlpha p hp]), if_pos hkc]

lemma guided_zero_eval (k : Key) (a b c a' b' : Char) :
    mutate_key_guided k 0 0 a b c a' b' = cycle3Key k a b c := by
  unfold mutate_key_guided
  rw [if_pos (by norm_num), if_pos (by norm_num)]

/-- C1: the spec claims every branch of the mutation operators preserves the
bijection invariant for every choice of the randomly drawn letters.  The
3-cycle branch of `mutate_key_guided` draws its letters with `random.choice`
(with replacement); when the first two draws coincide (here `a = b = 'A'`,
`c = 'B'` on the identity key) the chained tuple assignment produces a key
mapping both 'A' and 'B' to 'A', which violates the invariant. -/
theorem key_mutation_cycle_branch_bug :
    isValidKey idKey
    ∧ mutate_key_guided idKey 0 0 'A' 'A' 'B' 'A' 'B' = cycle3Key idKey 'A' 'A' 'B'
    ∧ (mutate_key_guided idKey 0 0 'A' 'A' 'B' 'A' 'B') 'A' = 'A'
    ∧ (mutate_key_guided idKey 0 0 'A' 'A' 'B' 'A' 'B') 'B' = 'A'
    ∧ ¬ isValidKey (mutate_key_guided idKey 0 0 'A' 'A' 'B' 'A' 'B') := by
  have h := guided_zero_eval idKey 'A' 'A' 'B' 'A' 'B'
  refine ⟨by decide, h, ?_, ?_, ?_⟩ <;> rw [h]
  · decide
  · decide
  · decide

/-- C3 (counterexample): the claim says the 3-cycle mutation assigns to `a`
the old value of `b`; on the identity key with letters A, B, C the code
assigns to A the old value of C instead. -/
theorem cycle3_direction_cex : cycle3Key idKey 'A' 'B' 'C' 'A' ≠ idKey 'B' := by
  decide

/-- C3 (amended): for three pairwise distinct letters the 3-cycle mutation
assigns `a ↦ c`'s old value, `b ↦ a`'s old value, `c ↦ b`'s old value, and
leaves every other letter's assignment unchanged. -/
theorem cycle3_assignments_amended (k : Key) (a b c : Char)
    (hab : a ≠ b) (hac : a ≠ c) (hbc : b ≠ c) :
    cycle3Key k a b c a = k c ∧ cycle3Key k a b c b = k a ∧ cycle3Key k a b c c = k b ∧
      ∀ x, x ≠ a → x ≠ b → x ≠ c → cycle3Key k a b c x = k x := by
  refine ⟨?_, ?_, ?_, ?_⟩
  · simp [cycle3Key, updateKey, hab, hac]
  · simp [cycle3Key, updateKey, hbc]
  · simp [cycle3Key, updateKey]
  · intro x hxa hxb hxc
    simp [cycle3Key, updateKey, hxa, hxb, hxc]

/-- Witness for the amended C3 theorem at a concrete input. -/
theorem cycle3_assignments_amended_witness :
    cycle3Key idKey 'A' 'B' 'C' 'A' = idKey 'C' :=
  (cycle3_assignments_amended idKey 'A' 'B' 'C' (by decide) (by decide) (by decide)).1

/-- C7: a crib pair whose fragments have different lengths leaves the key
unchanged (no error is raised), and an aligned pair with a non-letter
character on either side is skipped by the pair loop. -/
theorem apply_crib_malformed :
    (∀ (k : Key) (cw pw : List Char), cw.length ≠ pw.length →
      apply_crib_to_key k cw pw = k)
    ∧ (∀ (k : Key) (c p : Char), ¬ (isAsciiAlpha c ∧ isAsciiAlpha p) →
      cribStep k (c, p) = k) := by
  constructor
  · intro k cw pw h
    unfold apply_crib_to_key
    rw [if_pos]
    simpa using h
  · intro k c p h
    unfold cribStep
    rw [if_pos]
    by_cases hc : isAsciiAlpha c
    · exact Or.inr (fun hp => h ⟨hc, hp⟩)
    · exact Or.inl hc

/-- Witness for the C7 theorem at a concrete input. -/
theorem apply_crib_malformed_witness :
    apply_crib_to_key idKey ['A'] [] = idKey :=
  apply_crib_malformed.1 idKey ['A'] [] (by decide)

/-- C9: applying a key maps uppercase letters through the key, maps lowercase
letters through the key with the case restored, copies every other character
unchanged, and on `"Ab, C!"` with a key sending A→X, B→Y, C→Z yields
`"Xy, Z!"`.  (`decrypt_with_key` is a pure function of the key and text.) -/
theorem applyKey_case_preservation :
    decrypt_with_key "Ab, C!".toList exampleKey = "Xy, Z!".toList
    ∧ (∀ (k : Key) (s : List Char), decrypt_with_key s k = s.map (applyCh k))
    ∧ (∀ (k : Key) (c : Char), ¬ isAsciiAlpha c → applyCh k c = c)
    ∧ (∀ (k : Key) (c : Char), 'A' ≤ c ∧ c ≤ 'Z' → applyCh k c = k c)
    ∧ (∀ (k : Key) (c : Char), 'a' ≤ c ∧ c ≤ 'z' →
        applyCh k c = Char.toLower (k (Char.toUpper c))) := by
  refine ⟨by decide, fun k s => rfl, ?_, ?_, ?_⟩
  · intro k c h
    unfold isAsciiAlpha at h
    push_neg at h
    unfold applyCh
    rw [if_neg, if_neg]
    · intro hc
      exact absurd (h.2 hc.1) (by simp [hc.2])
    · intro hc
      exact absurd (h.1 hc.1) (by simp [hc.2])
  · intro k c h
    unfold applyCh
    rw [if_pos h]
  · intro k c h
    have hza : ('Z' : Char) < 'a' := by decide
    unfold applyCh
    rw [if_neg, if_pos h]
    intro hc
    exact absurd (lt_of_le_of_lt hc.2 hza) (not_lt.mpr h.1)

/-- Witness for the C9 theorem at a concrete input. -/
theorem applyKey_case_preservation_witness :
    applyCh exampleKey '!' = '!' :=
  applyKey_case_preservation.2.2.1 exampleKey '!' (by decide)

/-- C10: `mutate_key_random` samples its two letters without replacement, so
on distinct letters of a bijective key it exchanges exactly those two
assignments, leaves the rest unchanged, and never returns the input key;
the guided operator's independently drawn letters may coincide, in which case
its two-letter swap is the identity move. -/
theorem mutate_random_two_letter :
    (∀ (k : Key) (a b : Char), isValidKey k → a ∈ ALPHABETl → b ∈ ALPHABETl → a ≠ b →
      mutate_key_random k a b a = k b ∧ mutate_key_random k a b b = k a ∧
        (∀ x, x ≠ a → x ≠ b → mutate_key_random k a b x = k x) ∧
        mutate_key_random k a b ≠ k)
    ∧ (∀ (k : Key) (a : Char), swapKey k a a = k) := by
  constructor
  · intro k a b hk ha hb hab
    refine ⟨by simp [mutate_key_random, swapKey], by simp [mutate_key_random, swapKey, Ne.symm hab], ?_, ?_⟩
    · intro x hxa hxb
      simp [mutate_key_random, swapKey, hxa, hxb]
    · intro heq
      have h1 : mutate_key_random k a b a = k a := congrFun heq a
      have h2 : mutate_key_random k a b a = k b := by simp [mutate_key_random, swapKey]
      exact hab (valid_inj hk ha hb (h2 ▸ h1).symm)
  · intro k a
    funext x
    by_cases hxa : x = a <;> simp [swapKey, hxa]

/-- Witness for the C10 theorem at a concrete input. -/
theorem mutate_random_two_letter_witness :
    mutate_key_random idKey 'A' 'B' ≠ idKey :=
  (mutate_random_two_letter.1 idKey 'A' 'B' (by decide) (by decide) (by decide)
    (by decide)).2.2.2

/-- C6: on any bijective key, forcing the crib ("ABC", "THE") installs
A→T, B→H, C→E and keeps the key bijective; in general each aligned letter
pair (c, p) is a no-op when `Key[c] = p` already, and otherwise the step
locates the unique letter currently mapped to `p` and swaps it with `c`,
installing `c → p` while preserving the bijection (letters mapped neither to
`p` nor from `c` are untouched). -/
theorem apply_crib_forcing (k : Key) (hk : isValidKey k) :
    ((apply_crib_to_key k "ABC".toList "THE".toList) 'A' = 'T'
      ∧ (apply_crib_to_key k "ABC".toList "THE".toList) 'B' = 'H'
      ∧ (apply_crib_to_key k "ABC".toList "THE".toList) 'C' = 'E'
      ∧ isValidKey (apply_crib_to_key k "ABC".toList "THE".toList))
    ∧ (∀ c p, c ∈ ALPHABETl → p ∈ ALPHABETl →
        (k c = p → cribStep k (c, p) = k)
        ∧ (cribStep k (c, p)) c = p
        ∧ isValidKey (cribStep k (c, p))
        ∧ (∀ x, x ≠ c → k x ≠ p → cribStep k (c, p) x = k x)
        ∧ (k c ≠ p → ∃ kp, kp ∈ ALPHABETl ∧ k kp = p ∧
            (∀ x ∈ ALPHABETl, k x = p → x = kp) ∧
            cribStep k (c, p) = swapKey k kp c)) := by
  constructor
  · have hstep : apply_crib_to_key k "ABC".toList "THE".toList
        = cribStep (cribStep (cribStep k ('A', 'T')) ('B', 'H')) ('C', 'E') := rfl
    obtain ⟨h1i, h1v, h1pres⟩ := cribStep_installs hk
      (show 'A' ∈ ALPHABETl by decide) (show 'T' ∈ ALPHABETl by decide)
    obtain ⟨h2i, h2v, h2pres⟩ := cribStep_installs h1v
      (show 'B' ∈ ALPHABETl by decide) (show 'H' ∈ ALPHABETl by decide)
    obtain ⟨h3i, h3v, h3pres⟩ := cribStep_installs h2v
      (show 'C' ∈ ALPHABETl by decide) (show 'E' ∈ ALPHABETl by decide)
    have h2A : (cribStep (cribStep k ('A', 'T')) ('B', 'H')) 'A' = 'T' := by
      rw [h2pres 'A' (by decide) (by rw [h1i]; decide)]
      exact h1i
    have h3A : (cribStep (cribStep (cribStep k ('A', 'T')) ('B', 'H')) ('C', 'E')) 'A' = 'T' := by
      rw [h3pres 'A' (by decide) (by rw [h2A]; decide)]
      exact h2A
    have h3B : (cribStep (cribStep (cribStep k ('A', 'T')) ('B', 'H')) ('C', 'E')) 'B' = 'H' := by
      rw [h3pres 'B' (by decide) (by rw [h2i]; decide)]
      exact h2i
    rw [hstep]
    exact ⟨h3A, h3B, h3i, h3v⟩
  · intro c p hc hp
    obtain ⟨hinst, hval, hpres⟩ := cribStep_installs hk hc hp
    exact ⟨cribStep_noop hc hp, hinst, hval, hpres, cribStep_swap_form hk hc hp⟩

/-- Witness for the C6 theorem at a concrete input. -/
theorem apply_crib_forcing_witness :
    (apply_crib_to_key idKey "ABC".toList "THE".toList) 'A' = 'T' :=
  (apply_crib_forcing idKey (by decide)).1.1

/-! ### Helper lemmas for the round-trip through a key and its inverse -/

lemma char_upper_mem {c : Char} (h1 : 'A' ≤ c) (h2 : c ≤ 'Z') : c ∈ ALPHABETl := by
  have hb : ∀ n, n < 91 → 65 ≤ n → Char.ofNat n ∈ ALPHABETl := by decide
  rw [Char.le_def] at h1 h2
  have l1 : (65 : ℕ) ≤ c.toNat := h1
  have l2 : c.toNat ≤ (90 : ℕ) := h2
  have := hb c.toNat (by omega) l1
  rwa [Char.ofNat_toNat] at this

lemma char_lower_fact {c : Char} (h1 : 'a' ≤ c) (h2 : c ≤ 'z') :
    Char.toUpper c ∈ ALPHABETl ∧ Char.toLower (Char.toUpper c) = c := by
  have hb : ∀ n, n < 123 → 97 ≤ n →
      Char.toUpper (Char.ofNat n) ∈ ALPHABETl ∧
        Char.toLower (Char.toUpper (Char.ofNat n)) = Char.ofNat n := by decide
  rw [Char.le_def] at h1 h2
  have l1 : (97 : ℕ) ≤ c.toNat := h1
  have l2 : c.toNat ≤ (122 : ℕ) := h2
  have := hb c.toNat (by omega) l1
  rwa [Char.ofNat_toNat] at this

lemma lower_of_alpha : ∀ x ∈ ALPHABETl,
    ('a' ≤ Char.toLower x ∧ Char.toLower x ≤ 'z') ∧
      ¬ ('A' ≤ Char.toLower x ∧ Char.toLower x ≤ 'Z') ∧
      Char.toUpper (Char.toLower x) = x := by decide

lemma invert_key_spec {k : Key} (hk : isValidKey k) {p : Char} (hp : p ∈ ALPHABETl) :
    invert_key k p ∈ ALPHABETl ∧ k (invert_key k p) = p := by
  obtain ⟨c0, hc0, hkc0⟩ := valid_surj hk hp
  have hsome : (ALPHABETl.reverse.find? (fun c => k c == p)).isSome := by
    rw [List.find?_isSome]
    exact ⟨c0, by simpa using hc0, by simp [hkc0]⟩
  obtain ⟨c1, hfind⟩ := Option.isSome_iff_exists.mp hsome
  have h1 : k c1 = p := by simpa using List.find?_some hfind
  have h2 : c1 ∈ ALPHABETl := by
    have := List.mem_of_find?_eq_some hfind
    simpa using this
  unfold invert_key
  rw [hfind]
  exact ⟨h2, h1⟩

lemma round_char {k : Key} (hk : isValidKey k) (c : Char)
    (h : isAsciiAlpha c ∨ c.isWhitespace = true) :
    applyCh k (applyCh (invert_key k) c) = c := by
  rcases h with (⟨h1, h2⟩ | ⟨h1, h2⟩) | hws
  · have hcmem : c ∈ ALPHABETl := char_upper_mem h1 h2
    obtain ⟨hxmem, hkx⟩ := invert_key_spec hk hcmem
    have hinner : applyCh (invert_key k) c = invert_key k c := by
      unfold applyCh
      rw [if_pos ⟨h1, h2⟩]
    rw [hinner]
    unfold applyCh
    rw [if_pos (mem_alpha_upper _ hxmem)]
    exact hkx
  · obtain ⟨humem, hlow⟩ := char_lower_fact h1 h2
    obtain ⟨hxmem, hkx⟩ := invert_key_spec hk humem
    have hnotup : ¬ ('A' ≤ c ∧ c ≤ 'Z') := by
      intro hc
      have hza : ('Z' : Char) < 'a' := by decide
      exact absurd (lt_of_lt_of_le hza h1) (not_lt.mpr hc.2)
    have hinner : applyCh (invert_key k) c
        = Char.toLower (invert_key k (Char.toUpper c)) := by
      unfold applyCh
      rw [if_neg hnotup, if_pos ⟨h1, h2⟩]
    obtain ⟨hxl, hxnotup, hxup⟩ := lower_of_alpha _ hxmem
    rw [hinner]
    unfold applyCh
    rw [if_neg hxnotup, if_pos hxl, hxup, hkx, hlow]
  · have hc : ((c = ' ' ∨ c = '\t') ∨ c = '\r') ∨ c = '\n' := by
      simpa [Char.isWhitespace] using hws
    rcases hc with ((rfl | rfl) | rfl) | rfl <;> rfl

lemma round_list {k : Key} (hk : isValidKey k) :
    ∀ l : List Char, (∀ c ∈ l, isAsciiAlpha c ∨ c.isWhitespace = true) →
      decrypt_with_key (decrypt_with_key l (invert_key k)) k = l := by
  intro l
  induction l with
  | nil => intro _; rfl
  | cons c cs ih =>
    intro h
    have h1 := round_char hk c (h c (by simp))
    have h2 := ih (fun x hx => h x (by simp [hx]))
    simp only [decrypt_with_key, List.map_cons] at h2 ⊢
    rw [h1, h2]

/-- C8: for a bijective key and a text of letters and whitespace, applying the
key to the result of applying the inverted key returns the original text. -/
theorem transform_roundtrip (k : Key) (text : List Char) (hk : isValidKey k)
    (htext : ∀ c ∈ text, isAsciiAlpha c ∨ c.isWhitespace = true) :
    decrypt_with_key (decrypt_with_key text (invert_key k)) k = text :=
  round_list hk text htext

/-- Witness for the C8 theorem at a concrete input. -/
theorem transform_roundtrip_witness :
    decrypt_with_key (decrypt_with_key "Ab c".toList (invert_key idKey)) idKey
      = "Ab c".toList :=
  transform_roundtrip idKey "Ab c".toList (by decide) (by decide)

/-! ### Helper lemmas for the annealing search -/

lemma annealStep_inv {cipher : List Char} {st : AState}
    (h : annealInv cipher st) (start_temp end_temp : ℝ) (steps : ℕ)
    (tape : ℕ → AnnealEvent) (i : ℕ) :
    annealInv cipher (annealStep cipher start_temp end_temp steps tape st i) := by
  obtain ⟨h1, h2, h3, h4, h5⟩ := h
  simp only [annealStep, annealInv]
  split_ifs with hacc hbest
  · exact ⟨rfl, rfl, rfl, rfl, le_refl _⟩
  · exact ⟨rfl, rfl, h3, h4, not_lt.mp hbest⟩
  · exact ⟨h1, h2, h3, h4, h5⟩

lemma annealStep_best_eq {cipher : List Char} {st : AState}
    (h5 : st.current_score ≤ st.best_score) (start_temp end_temp : ℝ) (steps : ℕ)
    (tape : ℕ → AnnealEvent) (i : ℕ) :
    (annealStep cipher start_temp end_temp steps tape st i).best_score
      = max st.best_score
          (annealStep cipher start_temp end_temp steps tape st i).current_score := by
  simp only [annealStep]
  split_ifs with hacc hbest
  · simp [max_eq_right (le_of_lt hbest)]
  · simp [max_eq_left (not_lt.mp hbest)]
  · simp [max_eq_left h5]

lemma scanl_head {α β : Type} (f : β → α → β) (b : β) (l : List α) :
    ∃ t, List.scanl f b l = b :: t := by
  cases l <;> simp [List.scanl]

lemma anneal_scanl_inv {cipher : List Char} (start_temp end_temp : ℝ) (steps : ℕ)
    (tape : ℕ → AnnealEvent) :
    ∀ (l : List ℕ) (st : AState), annealInv cipher st →
      ∀ s ∈ l.scanl (annealStep cipher start_temp end_temp steps tape) st,
        annealInv cipher s := by
  intro l
  induction l with
  | nil =>
    intro st h s hs
    simp [List.scanl] at hs
    exact hs ▸ h
  | cons a t ih =>
    intro st h s hs
    rw [List.scanl_cons] at hs
    rcases List.mem_append.mp hs with hs | hs
    · simp at hs
      exact hs ▸ h
    · exact ih _ (annealStep_inv h start_temp end_temp steps tape a) s hs

lemma anneal_foldl_inv {cipher : List Char} (start_temp end_temp : ℝ) (steps : ℕ)
    (tape : ℕ → AnnealEvent) :
    ∀ (l : List ℕ) (st : AState), annealInv cipher st →
      annealInv cipher (l.foldl (annealStep cipher start_temp end_temp steps tape) st) := by
  intro l
  induction l with
  | nil => intro st h; exact h
  | cons a t ih =>
    intro st h
    exact ih _ (annealStep_inv h start_temp end_temp steps tape a)

lemma le_foldl_max : ∀ (l : List ℝ) (a : ℝ), a ≤ l.foldl max a := by
  intro l
  induction l with
  | nil => intro a; simp
  | cons x t ih => intro a; exact le_trans (le_max_left a x) (ih (max a x))

lemma anneal_foldl_best {cipher : List Char} (start_temp end_temp : ℝ) (steps : ℕ)
    (tape : ℕ → AnnealEvent) :
    ∀ (l : List ℕ) (st : AState), annealInv cipher st →
      (l.foldl (annealStep cipher start_temp end_temp steps tape) st).best_score
        = ((l.scanl (annealStep cipher start_temp end_temp steps tape) st).map
            AState.current_score).foldl max st.best_score := by
  intro l
  induction l with
  | nil =>
    intro st h
    simp [List.scanl]
    exact h.2.2.2.2
  | cons a t ih =>
    intro st h
    set step := annealStep cipher start_temp end_temp steps tape
    have hst' : annealInv cipher (step st a) :=
      annealStep_inv h start_temp end_temp steps tape a
    rw [List.foldl_cons, List.scanl_cons, ih _ hst']
    obtain ⟨tl, htl⟩ := scanl_head step (step st a) t
    rw [htl]
    simp only [List.map_cons, List.foldl_cons, List.singleton_append, List.map_cons,
      List.foldl_cons]
    have e1 : max st.best_score st.current_score = st.best_score :=
      max_eq_left h.2.2.2.2
    have e2 : max (step st a).best_score (step st a).current_score
        = (step st a).best_score := max_eq_left hst'.2.2.2.2
    have e3 : max st.best_score (step st a).current_score = (step st a).best_score := by
      rw [annealStep_best_eq h.2.2.2.2 start_temp end_temp steps tape a]
    rw [e1, e2, e3]

/-- C5: for every ciphertext, initial key, temperature schedule, step budget
and randomness tape, `simulated_anneal` returns a coherent best triple: the
returned plaintext is the decryption of the ciphertext under the returned key,
the returned score is the fitness of that plaintext, the returned score is the
maximum fitness over the loop-state walk (the initial state plus every state
after a step, which changes exactly at accepted steps), and in particular it
is at least the fitness of the initial key's decryption. -/
theorem simulated_anneal_best_tracking (cipher : List Char) (key0 : Key)
    (start_temp end_temp : ℝ) (steps : ℕ) (tape : ℕ → AnnealEvent) :
    (simulated_anneal cipher key0 start_temp end_temp steps tape).2.2
        = decrypt_with_key cipher (simulated_anneal cipher key0 start_temp end_temp steps tape).1
    ∧ (simulated_anneal cipher key0 start_temp end_temp steps tape).2.1
        = combined_fitness (simulated_anneal cipher key0 start_temp end_temp steps tape).2.2
    ∧ (simulated_anneal cipher key0 start_temp end_temp steps tape).2.1
        = ((annealWalk cipher key0 start_temp end_temp steps tape).map
            (fun s => combined_fitness (decrypt_with_key cipher s.current_key))).foldl max
            (combined_fitness (decrypt_with_key cipher key0))
    ∧ combined_fitness (decrypt_with_key cipher key0)
        ≤ (simulated_anneal cipher key0 start_temp end_temp steps tape).2.1 := by
  have hinit : annealInv cipher (annealInit cipher key0) :=
    ⟨rfl, rfl, rfl, rfl, le_refl _⟩
  have hfin := anneal_foldl_inv start_temp end_temp steps tape (List.range steps)
    (annealInit cipher key0) hinit
  have hbest := anneal_foldl_best start_temp end_temp steps tape (List.range steps)
    (annealInit cipher key0) hinit
  have hmap : (annealWalk cipher key0 start_temp end_temp steps tape).map
        AState.current_score
      = (annealWalk cipher key0 start_temp end_temp steps tape).map
        (fun s => combined_fitness (decrypt_with_key cipher s.current_key)) := by
    apply List.map_congr_left
    intro s hs
    have hsinv := anneal_scanl_inv start_temp end_temp steps tape (List.range steps)
      (annealInit cipher key0) hinit s hs
    rw [hsinv.2.1, hsinv.1]
  have h3 : (simulated_anneal cipher key0 start_temp end_temp steps tape).2.1
      = ((annealWalk cipher key0 start_temp end_temp steps tape).map
          (fun s => combined_fitness (decrypt_with_key cipher s.current_key))).foldl max
          (combined_fitness (decrypt_with_key cipher key0)) := by
    show ((List.range steps).foldl
        (annealStep cipher start_temp end_temp steps tape)
        (annealInit cipher key0)).best_score = _
    rw [hbest, ← hmap]
    rfl
  refine ⟨hfin.2.2.1, hfin.2.2.2.1, h3, ?_⟩
  rw [h3]
  exact le_foldl_max _ _

/-! ### Concrete evaluations of the fitness model -/

lemma totalR_eval : ((TOTAL_BIGRAMS : ℕ) : ℝ) = 213900 := by
  have h : TOTAL_BIGRAMS = 213900 := by decide
  rw [h]
  norm_num

lemma bigramCountR_TH : ((bigramCountQ ('T', 'H') : ℚ) : ℝ) = 20000 := by
  have h : bigramGet ('T', 'H') = some 20000 := by decide
  unfold bigramCountQ
  rw [h]
  norm_num

lemma bigramCountR_HE : ((bigramCountQ ('H', 'E') : ℚ) : ℝ) = 18000 := by
  have h : bigramGet ('H', 'E') = some 18000 := by decide
  unfold bigramCountQ
  rw [h]
  norm_num

lemma bigramCountR_ET : ((bigramCountQ ('E', 'T') : ℚ) : ℝ) = 1 / 100 := by
  have h : bigramGet ('E', 'T') = none := by decide
  unfold bigramCountQ
  rw [h]
  norm_num [BIGRAM_FLOOR]

lemma bigram_eval_THE : bigram_score "THE".toList
    = (Real.log 20000 - Real.log 213900) + (Real.log 18000 - Real.log 213900) := by
  have hl : letters_only "THE".toList = ['T', 'H', 'E'] := by decide
  have ha : adjPairs ['T', 'H', 'E'] = [('T', 'H'), ('H', 'E')] := by decide
  simp only [bigram_score]
  rw [hl, if_neg (by norm_num), ha]
  simp only [List.map_cons, List.map_nil, List.sum_cons, List.sum_nil]
  rw [bigramCountR_TH, bigramCountR_HE, totalR_eval]
  ring

lemma bigram_eval_THETHE : bigram_score "THE THE".toList
    = 2 * Real.log 20000 + 2 * Real.log 18000 + Real.log (1 / 100)
      - 5 * Real.log 213900 := by
  have hl : letters_only "THE THE".toList = "THETHE".toList := by decide
  have ha : adjPairs "THETHE".toList
      = [('T', 'H'), ('H', 'E'), ('E', 'T'), ('T', 'H'), ('H', 'E')] := by decide
  simp only [bigram_score]
  rw [hl, if_neg (by norm_num), ha]
  simp only [List.map_cons, List.map_nil, List.sum_cons, List.sum_nil]
  rw [bigramCountR_TH, bigramCountR_HE, bigramCountR_ET, totalR_eval]
  ring

lemma fitness_eval_THE : combined_fitness "THE".toList
    = Real.log 20000 + Real.log 18000 - 2 * Real.log 213900 + 9.6 := by
  have hws : word_score "THE".toList = 1 := by
    have h1 : pyTokens "THE".toList = ["THE".toList] := by decide
    have h2 : word_counts "THE".toList = (1, 1) := by decide
    unfold word_score
    rw [h1, h2]
    norm_num
  have hcw : common_words_bonus "THE".toList = 1 := by decide
  unfold combined_fitness
  rw [bigram_eval_THE, hws, hcw]
  norm_num
  ring

lemma fitness_eval_THETHE : combined_fitness "THE THE".toList
    = 2 * Real.log 20000 + 2 * Real.log 18000 + Real.log (1 / 100)
      - 5 * Real.log 213900 + 11.2 := by
  have hws : word_score "THE THE".toList = 1 := by
    have h1 : pyTokens "THE THE".toList = ["THE".toList, "THE".toList] := by decide
    have h2 : word_counts "THE THE".toList = (2, 2) := by decide
    unfold word_score
    rw [h1, h2, if_neg (by simp)]
    norm_num
  have hcw : common_words_bonus "THE THE".toList = 2 := by decide
  unfold combined_fitness
  rw [bigram_eval_THETHE, hws, hcw]
  norm_num
  ring

lemma crib_log_bound :
    Real.log 20000 + Real.log 18000 + Real.log (1 / 100) + 1.6
      < 3 * Real.log 213900 := by
  have h1 : Real.log 20000 + Real.log 18000 + Real.log (1 / 100)
      = Real.log 3600000 := by
    rw [← Real.log_mul (by norm_num) (by norm_num),
      ← Real.log_mul (by norm_num) (by norm_num)]
    norm_num
  have h2 : (3 : ℝ) * Real.log 213900 = Real.log ((213900 : ℝ) ^ (3 : ℕ)) := by
    rw [Real.log_pow]
    norm_num
  have h4 : Real.exp 1.6 < (213900 : ℝ) ^ (3 : ℕ) / 3600000 := by
    have e1 : Real.exp 1.6 < Real.exp 2 := Real.exp_lt_exp.mpr (by norm_num)
    have e2 : Real.exp 2 = Real.exp 1 * Real.exp 1 := by
      rw [← Real.exp_add]
      norm_num
    have e3 : Real.exp 1 * Real.exp 1 < 2.7182818286 * 2.7182818286 := by
      have hd := Real.exp_one_lt_d9
      nlinarith [Real.exp_pos 1]
    have e4 : (2.7182818286 : ℝ) * 2.7182818286 < (213900 : ℝ) ^ (3 : ℕ) / 3600000 := by
      norm_num
    linarith [e2 ▸ e1]
  have h5 : (1.6 : ℝ) < Real.log ((213900 : ℝ) ^ (3 : ℕ) / 3600000) :=
    (Real.lt_log_iff_exp_lt (by positivity)).mpr h4
  have h3 : Real.log ((213900 : ℝ) ^ (3 : ℕ) / 3600000)
      = Real.log ((213900 : ℝ) ^ (3 : ℕ)) - Real.log 3600000 :=
    Real.log_div (by positivity) (by norm_num)
  rw [h1, h2]
  rw [h3] at h5
  linarith

/-- C2 (counterexample): the claim says the fitness adds a bonus of order
hundreds for every literal occurrence of a crib phrase such as "THE"; in the
code `combined_fitness` has no such term, and adding a second occurrence of
"THE" in fact lowers the score (the extra unknown 'ET' bigram costs more than
the flat 1.6 common-word bonus gains). -/
theorem fitness_crib_bonus_cex :
    combined_fitness "THE THE".toList < combined_fitness "THE".toList := by
  rw [fitness_eval_THE, fitness_eval_THETHE]
  have := crib_log_bound
  linarith

/-- C2 (amended): the fitness is exactly the bigram log-likelihood plus 8
times the dictionary match ratio plus a flat 1.6 per common-word token; there
is no separate crib-phrase bonus — one extra "THE" occurrence changes the
score only by its bigram terms and one flat 1.6 token bonus. -/
theorem fitness_terms_amended :
    (∀ s : List Char, combined_fitness s
        = bigram_score s + ((word_score s : ℚ) : ℝ) * 8.0
          + ((common_words_bonus s : ℕ) : ℝ) * 1.6)
    ∧ combined_fitness "THE THE".toList
        = combined_fitness "THE".toList
          + (Real.log (1 / 100) + Real.log 20000 + Real.log 18000
              - 3 * Real.log 213900)
          + 1.6 := by
  constructor
  · intro s
    rfl
  · rw [fitness_eval_THE, fitness_eval_THETHE]
    ring

/-! ### Helper lemmas for the restart orchestrator's dedup-and-truncate walk -/

lemma pdedup_sublist : ∀ (l : List Res) (seen : List (List Char)),
    (pdedup l seen).Sublist l := by
  intro l
  induction l with
  | nil => intro seen; simp [pdedup]
  | cons x r ih =>
    intro seen
    by_cases h : x.2.1 ∈ seen
    · simp only [pdedup, if_pos h]
      exact (ih seen).cons x
    · simp only [pdedup, if_neg h]
      exact (ih _).cons₂ x

lemma pdedup_plain_nodup : ∀ (l : List Res) (seen : List (List Char)),
    ((pdedup l seen).map (fun x => x.2.1)).Nodup
    ∧ ∀ y ∈ pdedup l seen, y.2.1 ∉ seen := by
  intro l
  induction l with
  | nil => intro seen; exact ⟨List.nodup_nil, by simp [pdedup]⟩
  | cons x r ih =>
    intro seen
    by_cases h : x.2.1 ∈ seen
    · simp only [pdedup, if_pos h]
      exact ih seen
    · simp only [pdedup, if_neg h]
      obtain ⟨ihn, ihs⟩ := ih (x.2.1 :: seen)
      constructor
      · simp only [List.map_cons, List.nodup_cons]
        refine ⟨?_, ihn⟩
        intro hmem
        obtain ⟨y, hy, hyp⟩ := List.mem_map.mp hmem
        exact (ihs y hy) (by rw [hyp]; exact List.mem_cons_self _ _)
      · intro y hy
        rcases List.mem_cons.mp hy with rfl | hy'
        · exact h
        · intro hsy
          exact (ihs y hy') (List.mem_cons_of_mem _ hsy)

lemma pdedup_cover : ∀ (l : List Res) (seen : List (List Char)),
    ∀ z ∈ l, z.2.1 ∈ seen ∨ ∃ y ∈ pdedup l seen, y.2.1 = z.2.1 := by
  intro l
  induction l with
  | nil => intro seen z hz; cases hz
  | cons x r ih =>
    intro seen z hz
    by_cases h : x.2.1 ∈ seen
    · simp only [pdedup, if_pos h]
      rcases List.mem_cons.mp hz with rfl | hz'
      · exact Or.inl h
      · exact ih seen z hz'
    · simp only [pdedup, if_neg h]
      rcases List.mem_cons.mp hz with heq | hz'
      · exact Or.inr ⟨x, List.mem_cons_self _ _, heq ▸ rfl⟩
      · rcases ih (x.2.1 :: seen) z hz' with hseen | ⟨y, hy, hyp⟩
        · rcases List.mem_cons.mp hseen with heq | hseen'
          · exact Or.inr ⟨x, List.mem_cons_self _ _, heq.symm⟩
          · exact Or.inl hseen'
        · exact Or.inr ⟨y, List.mem_cons_of_mem _ hy, hyp⟩

lemma pdedup_first_max : ∀ (l : List Res) (seen : List (List Char)),
    l.Pairwise (fun a b => b.1 ≤ a.1) →
    ∀ x ∈ pdedup l seen, ∀ z ∈ l, z.2.1 = x.2.1 → z.1 ≤ x.1 := by
  intro l
  induction l with
  | nil => intro seen _ x hx; cases hx
  | cons w r ih =>
    intro seen hp x hx z hz hplain
    obtain ⟨hhead, htail⟩ := List.pairwise_cons.mp hp
    by_cases h : w.2.1 ∈ seen
    · rw [pdedup, if_pos h] at hx
      rcases List.mem_cons.mp hz with rfl | hz'
      · exact absurd (hplain ▸ h) ((pdedup_plain_nodup r seen).2 x hx)
      · exact ih seen htail x hx z hz' hplain
    · rw [pdedup, if_neg h] at hx
      rcases List.mem_cons.mp hx with rfl | hx'
      · rcases List.mem_cons.mp hz with rfl | hz'
        · exact le_refl _
        · exact hhead z hz'
      · have hxnot : x.2.1 ∉ w.2.1 :: seen := (pdedup_plain_nodup r _).2 x hx'
        rcases List.mem_cons.mp hz with rfl | hz'
        · exact absurd (hplain ▸ List.mem_cons_self _ _) (hplain ▸ hxnot)
        · exact ih (w.2.1 :: seen) htail x hx' z hz' hplain

lemma dedupTake_eq (topN : ℕ) :
    ∀ (l : List Res) (seen : List (List Char)) (out : List Res),
      out.length < topN →
      dedupTake topN l seen out
        = out.reverse ++ (pdedup l seen).take (topN - out.length) := by
  intro l
  induction l with
  | nil => intro seen out h; simp [dedupTake, pdedup]
  | cons x r ih =>
    intro seen out h
    by_cases hmem : x.2.1 ∈ seen
    · simp only [dedupTake, if_pos hmem]
      rw [if_neg (by omega)]
      rw [ih seen out h]
      simp only [pdedup, if_pos hmem]
    · simp only [dedupTake, if_neg hmem]
      by_cases hbr : topN ≤ out.length + 1
      · have hlen : topN = out.length + 1 := le_antisymm hbr h
        rw [if_pos (by simp; omega)]
        simp only [pdedup, if_neg hmem]
        rw [List.reverse_cons]
        have h1 : topN - out.length = 1 := by omega
        rw [h1]
        simp [List.take]
      · rw [if_neg (by simp; omega)]
        rw [ih (x.2.1 :: seen) (x :: out) (by simp; omega)]
        simp only [pdedup, if_neg hmem]
        rw [List.reverse_cons, List.append_assoc]
        congr 1
        have h1 : topN - out.length = (topN - (out.length + 1)) + 1 := by omega
        rw [h1]
        simp [List.take_succ_cons]

lemma sortResults_perm (l : List Res) : (sortResults l).Perm l :=
  List.mergeSort_perm l _

lemma sortResults_sorted (l : List Res) :
    (sortResults l).Pairwise (fun a b => b.1 ≤ a.1) := by
  have h := @List.sorted_mergeSort Res (fun a b : Res => decide (b.1 ≤ a.1))
    (fun a b c h1 h2 => by
      simp only [decide_eq_true_eq] at h1 h2 ⊢
      exact le_trans h2 h1)
    (fun a b => by
      simp only [Bool.or_eq_true, decide_eq_true_eq]
      exact le_total b.1 a.1)
    l
  exact h.imp (fun hab => by simpa using hab)

/-- C4 (amended): for every randomness oracle, ciphertext, crib list, restart
count, steps value and `top_n ≥ 1`, the list returned by `run_restarts` has
pairwise distinct plaintexts, non-increasing scores, at most `top_n` entries,
fewer than `top_n` entries only when fewer than `top_n` distinct plaintexts
were produced across all runs, and each returned entry is a produced result
carrying the maximal score among produced results with its plaintext (the
first occurrence in the descending sort). -/
theorem run_restarts_output_amended (o : RunOracle) (cipher : List Char)
    (restarts steps : ℕ) (crib_list : List (List Char × List Char))
    (top_n : ℕ) (htop : 1 ≤ top_n) :
    ((run_restarts o cipher restarts steps crib_list top_n).map (fun x => x.2.1)).Nodup
    ∧ (run_restarts o cipher restarts steps crib_list top_n).Pairwise
        (fun a b => b.1 ≤ a.1)
    ∧ (run_restarts o cipher restarts steps crib_list top_n).length ≤ top_n
    ∧ ((run_restarts o cipher restarts steps crib_list top_n).length < top_n →
        ((resultsOf o cipher restarts steps crib_list).map
          (fun x => x.2.1)).toFinset.card < top_n)
    ∧ ∀ x ∈ run_restarts o cipher restarts steps crib_list top_n,
        x ∈ resultsOf o cipher restarts steps crib_list
        ∧ ∀ y ∈ resultsOf o cipher restarts steps crib_list,
            y.2.1 = x.2.1 → y.1 ≤ x.1 := by
  have hperm : (sortResults (resultsOf o cipher restarts steps crib_list)).Perm
      (resultsOf o cipher restarts steps crib_list) := sortResults_perm _
  have hsort := sortResults_sorted (resultsOf o cipher restarts steps crib_list)
  have hrw : run_restarts o cipher restarts steps crib_list top_n
      = (pdedup (sortResults (resultsOf o cipher restarts steps crib_list)) []).take
          top_n := by
    unfold run_restarts
    rw [dedupTake_eq top_n _ [] [] (by simpa using htop)]
    simp
  have hDsub := pdedup_sublist (sortResults (resultsOf o cipher restarts steps crib_list)) []
  have hDnodup := (pdedup_plain_nodup
    (sortResults (resultsOf o cipher restarts steps crib_list)) []).1
  have hDsorted : (pdedup (sortResults (resultsOf o cipher restarts steps crib_list))
      []).Pairwise (fun a b => b.1 ≤ a.1) := hsort.sublist hDsub
  refine ⟨?_, ?_, ?_, ?_, ?_⟩
  · rw [hrw, List.map_take]
    exact hDnodup.sublist (List.take_sublist _ _)
  · rw [hrw]
    exact hDsorted.sublist (List.take_sublist _ _)
  · rw [hrw, List.length_take]
    omega
  · rw [hrw, List.length_take]
    intro hlt
    have hDlen : (pdedup (sortResults (resultsOf o cipher restarts steps crib_list))
        []).length < top_n := by omega
    have hext : ∀ p, p ∈ (resultsOf o cipher restarts steps crib_list).map
          (fun x => x.2.1)
        ↔ p ∈ (pdedup (sortResults (resultsOf o cipher restarts steps crib_list))
            []).map (fun x => x.2.1) := by
      intro p
      constructor
      · intro hp
        obtain ⟨z, hz, hzp⟩ := List.mem_map.mp hp
        have hzS : z ∈ sortResults (resultsOf o cipher restarts steps crib_list) :=
          hperm.mem_iff.mpr hz
        rcases pdedup_cover _ [] z hzS with hfalse | ⟨y, hy, hyp⟩
        · cases hfalse
        · exact List.mem_map.mpr ⟨y, hy, hyp.trans hzp⟩
      · intro hp
        obtain ⟨y, hy, hyp⟩ := List.mem_map.mp hp
        have hyS := hDsub.subset hy
        exact List.mem_map.mpr ⟨y, hperm.mem_iff.mp hyS, hyp⟩
    have hcard : ((resultsOf o cipher restarts steps crib_list).map
          (fun x => x.2.1)).toFinset.card
        = (pdedup (sortResults (resultsOf o cipher restarts steps crib_list))
            []).length := by
      rw [List.toFinset.ext hext, List.toFinset_card_of_nodup hDnodup,
        List.length_map]
    omega
  · intro x hx
    rw [hrw] at hx
    have hxD := List.take_subset _ _ hx
    have hxS := hDsub.subset hxD
    refine ⟨hperm.mem_iff.mp hxS, ?_⟩
    intro y hy hyp
    exact pdedup_first_max _ [] hsort x hxD y (hperm.mem_iff.mpr hy) hyp

/-- Witness for the amended C4 theorem at a concrete input. -/
theorem run_restarts_output_amended_witness :
    (run_restarts zeroOracle [] 0 0 [] 1).length ≤ 1 :=
  (run_restarts_output_amended zeroOracle [] 0 0 [] 1 (by decide)).2.2.1

/-- C4 (counterexample): with `top_n = 0` the claim's "at most top_n entries"
fails — the break test `len(out) >= top_n` runs only after the first entry has
been appended, so a single restart already yields one returned entry. -/
theorem run_restarts_topn_zero_cex :
    ¬ ((run_restarts zeroOracle [] 1 0 [] 0).length ≤ 0) := by
  have hR : (resultsOf zeroOracle [] 1 0 []).length = 2 := by
    unfold resultsOf
    simp [List.range_succ, Function.comp]
  have hS : (sortResults (resultsOf zeroOracle [] 1 0 [])).length = 2 := by
    rw [(sortResults_perm _).length_eq, hR]
  rcases hcons : sortResults (resultsOf zeroOracle [] 1 0 []) with _ | ⟨a, t⟩
  · rw [hcons] at hS
    simp at hS
  · have hout : run_restarts zeroOracle [] 1 0 [] 0 = [a] := by
      unfold run_restarts
      rw [hcons]
      simp [dedupTake]
    rw [hout]
    simp
